import Mathlib

/-!
Verification of the client-side data pipeline of `src/script.js`
(UserManagementDash): record normalisation, the filter → sort → paginate
view pipeline, and the create / update / delete reconciliation of the
local collection.

JavaScript strings are modelled as `List Char`; machine numbers that are
used as integers (`id`, HTTP statuses, page counts) are modelled as `Nat`.
Remote calls are modelled by passing the outcome of the call (HTTP status
and decoded body) as an explicit oracle argument, `none` standing for a
network error.
-/

namespace UMDash

/-- JavaScript strings, modelled as lists of characters. -/
abbrev Str := List Char

/-- Character class of the JavaScript regex `\s` (also the set removed by
`String.prototype.trim`): ASCII whitespace, NBSP, the Unicode space
separators, line/paragraph separators and the BOM. -/
def isJsSpace (c : Char) : Bool :=
  c = ' ' || c = '\t' || c = '\n' || c = '\r' || c = '\x0b' || c = '\x0c' ||
  c = '\u00A0' || c = '\u1680' || ('\u2000' ≤ c && c ≤ '\u200A') ||
  c = '\u2028' || c = '\u2029' || c = '\u202F' || c = '\u205F' ||
  c = '\u3000' || c = '\uFEFF'

/-- Model of `String.prototype.toLowerCase` (character-wise lowering). -/
def lower (s : Str) : Str := s.map Char.toLower

/-- Model of `String.prototype.trim`: strip leading and trailing whitespace. -/
def trimStr (s : Str) : Str :=
  ((s.dropWhile isJsSpace).reverse.dropWhile isJsSpace).reverse

/-- Model of `Array.prototype.join(" ")` on strings: interpose single spaces. -/
def joinSpace : List Str → Str
  | [] => []
  | [w] => w
  | w :: ws => w ++ ' ' :: joinSpace ws

/-- Model of `String.prototype.includes`: `includesSub h n` is true iff the
needle `n` occurs contiguously inside the haystack `h`. -/
def includesSub : Str → Str → Bool
  | [], n => n.isEmpty
  | a :: t, n => n.isPrefixOf (a :: t) || includesSub t n

/-- A record of the local collection (`script.js` shape
`{id, first, last, email, department}`). -/
structure User where
  id : Nat
  first : Str
  last : Str
  email : Str
  department : Str
deriving DecidableEq

/-- The four per-field filter strings (`state.filters`). -/
structure Filters where
  first : Str
  last : Str
  email : Str
  department : Str
deriving DecidableEq

/-- The sortable column keys (`th.dataset.key` values). -/
inductive SortKey
  | id
  | first
  | last
  | email
  | department
deriving DecidableEq

/-- The application state of `script.js` (the DOM cache aside). -/
structure AppState where
  users : List User
  filtered : List User
  page : Nat
  perPage : Nat
  totalPages : Nat
  sortKey : Option SortKey
  sortDir : Int
  filters : Filters
  search : Str
deriving DecidableEq

/-- The four display fields joined by `" "`, as in
`[u.first, u.last, u.email, u.department].join(" ")`. -/
def combinedFields (u : User) : Str :=
  joinSpace [u.first, u.last, u.email, u.department]

/-- The filter predicate of `applyAllFilters` (lines 96–108 of
`script.js`); `s` is the already trimmed and lowered search term. Each
clause mirrors one early `return false`. -/
def userMatches (fs : Filters) (s : Str) (u : User) : Bool :=
  if !fs.first.isEmpty && !includesSub (lower u.first) (lower fs.first) then false
  else if !fs.last.isEmpty && !includesSub (lower u.last) (lower fs.last) then false
  else if !fs.email.isEmpty && !includesSub (lower u.email) (lower fs.email) then false
  else if !fs.department.isEmpty && !includesSub (lower u.department) (lower fs.department) then false
  else if !s.isEmpty && !includesSub (lower (combinedFields u)) s then false
  else true

/-- The filtering stage of `applyAllFilters`:
`state.filtered = state.users.filter(...)` with
`s = state.search.trim().toLowerCase()`. -/
def filterStep (users : List User) (fs : Filters) (search : Str) : List User :=
  users.filter (userMatches fs (lower (trimStr search)))

/-- The three-way comparison at the heart of the sort comparator:
`if (va < vb) return -1 * dir; if (va > vb) return 1 * dir; return 0`. -/
def cmpVal {α : Type} [LinearOrder α] (dir : Int) (va vb : α) : Int :=
  if va < vb then -1 * dir
  else if vb < va then 1 * dir
  else 0

/-- The comparator of the sort stage (lines 112–122 of `script.js`):
string keys compare the lowered field values, the `id` key compares
numerically (the `key === "id"` override). -/
def cmpUsers (k : SortKey) (dir : Int) (a b : User) : Int :=
  match k with
  | .id => cmpVal dir a.id b.id
  | .first => cmpVal dir (lower a.first) (lower b.first)
  | .last => cmpVal dir (lower a.last) (lower b.last)
  | .email => cmpVal dir (lower a.email) (lower b.email)
  | .department => cmpVal dir (lower a.department) (lower b.department)

/-- The "may come before" relation induced by the comparator, as used by
the (stable, per ECMAScript) `Array.prototype.sort`. -/
def userLE (k : SortKey) (dir : Int) (a b : User) : Bool :=
  decide (cmpUsers k dir a b ≤ 0)

/-- The sort stage of `applyAllFilters`: `if (state.sortKey) state.filtered.sort(...)`.
`Array.prototype.sort` is required to be stable, so it is modelled by a
stable merge sort on the comparator's induced relation. -/
def sortStep (key : Option SortKey) (dir : Int) (l : List User) : List User :=
  match key with
  | some k => l.mergeSort (userLE k dir)
  | none => l

/-- The recompute of `applyAllFilters` (lines 94–127 of `script.js`):
filter, then sort, then `totalPages = max(1, ceil(filtered.length / perPage))`
(the ceiling written for `perPage ≥ 1` as `(n + p - 1) / p`), then the page
reset `if (page > totalPages) page = 1`. -/
def applyAllFilters (st : AppState) : AppState :=
  let filtered := sortStep st.sortKey st.sortDir (filterStep st.users st.filters st.search)
  let totalPages := max 1 ((filtered.length + st.perPage - 1) / st.perPage)
  { st with
    filtered := filtered
    totalPages := totalPages
    page := if st.page > totalPages then 1 else st.page }

/-- The slice taken by `renderTable`:
`state.filtered.slice(start, start + perPage)` with `start = (page-1)*perPage`. -/
def pageItems (st : AppState) : List User :=
  (st.filtered.drop ((st.page - 1) * st.perPage)).take st.perPage

/-- Model of `res.ok` of the Fetch API: HTTP status in the range 200–299. -/
def okStatus (s : Nat) : Bool := 200 ≤ s && s ≤ 299

/-- The `splitName` tokeniser `full.trim().split(/\s+/)`: maximal runs of
non-whitespace characters, leading/trailing/repeated whitespace dropped.
`acc` holds the (reversed) characters of the token being read. -/
def splitTokensAux : Str → Str → List Str
  | [], acc => if acc.isEmpty then [] else [acc.reverse]
  | c :: cs, acc =>
    if isJsSpace c then
      if acc.isEmpty then splitTokensAux cs []
      else acc.reverse :: splitTokensAux cs []
    else splitTokensAux cs (c :: acc)

/-- The whitespace-separated tokens of a string. -/
def splitTokens (s : Str) : List Str := splitTokensAux s []

/-- `splitName` (lines 57–61 of `script.js`): `none` and the empty string
are the falsy `full` values; otherwise the first token becomes `first` and
the remaining tokens, joined by single spaces, become `last` (with the
`|| ""` defaults of the source). -/
def splitName (full : Option Str) : Str × Str :=
  match full with
  | none => ([], [])
  | some f =>
    if f.isEmpty then ([], [])
    else
      let parts := splitTokens f
      (parts.headD [], joinSpace (parts.drop 1))

/-- The nested `company` object of a raw remote record. -/
structure RawCompany where
  name : Option Str
deriving DecidableEq

/-- A raw remote record as returned by `GET /users`
(`{id, name, email, company:{name}}`, any field possibly missing). -/
structure RawUser where
  id : Nat
  name : Option Str
  email : Option Str
  company : Option RawCompany
deriving DecidableEq

/-- `makeUserFromAPI` (lines 63–72 of `script.js`): normalise a raw remote
record. `u.email || ""` and the truthiness test
`u.company && u.company.name ? u.company.name : ""` are made explicit. -/
def makeUserFromAPI (u : RawUser) : User :=
  let p := splitName u.name
  { id := u.id
    first := p.1
    last := p.2
    email := u.email.getD []
    department :=
      match u.company with
      | some c =>
        match c.name with
        | some n => if n.isEmpty then [] else n
        | none => []
      | none => [] }

/-- The success path of `loadUsers`: `state.users = data.map(makeUserFromAPI)`
(on a non-2xx status or network error the collection is left as it was). -/
def loadUsers (data : List RawUser) : List User := data.map makeUserFromAPI

/-- The create reconciliation (lines 321–323 of `script.js`):
`newId = ret.id || Math.max(0, ...ids) + 1` (a returned id of `0` is falsy
and falls back like a missing one) and `state.users.unshift({...localUser, id: newId})`. -/
def createUser (users : List User) (draft : User) (retId : Option Nat) : List User :=
  let fallback := (users.map User.id).foldr max 0 + 1
  let newId :=
    match retId with
    | some j => if j ≠ 0 then j else fallback
    | none => fallback
  { draft with id := newId } :: users

/-- The update reconciliation (line 311 of `script.js`):
`state.users = state.users.map(u => u.id === eid ? localUser : u)`. -/
def updateUser (users : List User) (eid : Nat) (draft : User) : List User :=
  users.map (fun u => if u.id = eid then draft else u)

/-- The delete handler (lines 353–356 of `script.js`): on a network error
(`none`) or when `!res.ok && status !== 200 && status !== 204` the
collection is unchanged, otherwise the record is filtered out by id. -/
def deleteUser (users : List User) (i : Nat) (resp : Option Nat) : List User :=
  match resp with
  | none => users
  | some status =>
    if !okStatus status && status ≠ 200 && status ≠ 204 then users
    else users.filter (fun u => u.id ≠ i)

/-- The email regex `/^[^\s@]+@[^\s@]+\.[^\s@]+$/`: characters allowed in
the local part and domain. -/
def isEmailChar (c : Char) : Bool := !isJsSpace c && c != '@'

/-- Split a string at the first occurrence of a character. -/
def breakAtChar (c : Char) : Str → Option (Str × Str)
  | [] => none
  | x :: xs =>
    if x = c then some ([], xs)
    else
      match breakAtChar c xs with
      | none => none
      | some (l, r) => some (x :: l, r)

/-- Does the string contain a `'.'` at some position other than the last? -/
def dotNotLast : Str → Bool
  | [] => false
  | [_] => false
  | c :: rest => c = '.' || dotNotLast rest

/-- Does the string contain a `'.'` at an interior position (neither first
nor last)?  This is what `[^\s@]+\.[^\s@]+` requires of the domain beyond
its character class. -/
def hasInteriorDot : Str → Bool
  | [] => false
  | _ :: rest => dotNotLast rest

/-- `validateEmail` (line 338 of `script.js`): the regex
`/^[^\s@]+@[^\s@]+\.[^\s@]+$/` holds iff the string splits at its only `@`
into a nonempty local part and a domain, all of whose characters lie in
`[^\s@]`, with a dot at an interior position of the domain. -/
def validateEmail (e : Str) : Bool :=
  match breakAtChar '@' e with
  | none => false
  | some (l, d) =>
    !l.isEmpty && l.all isEmailChar && d.all isEmailChar && hasInteriorDot d

/-- The form field values read by the submit handler. -/
structure FormInput where
  first : Str
  last : Str
  email : Str
  department : Str
deriving DecidableEq

/-- Outcome of the remote call made by the submit handler: the HTTP status
(`none` for a network error) and, for create, the `id` of the decoded
response body (`none` when absent). -/
structure RemoteOracle where
  status : Option Nat
  retId : Option Nat
deriving DecidableEq

/-- What the submit handler leaves behind: the application state, whether a
remote call was issued, and whether a form-level error is showing. -/
structure SubmitOut where
  state : AppState
  remoteCalled : Bool
  formError : Bool
deriving DecidableEq

/-- The `localUser` object of the submit handler:
`{id: editingId ? Number(editingId) : null, first, last, email, department}`
built from the trimmed field values (`null` modelled as `0`; on create the
id is overwritten by `createUser` anyway). -/
def draftOf (editingId : Option Nat) (inp : FormInput) : User :=
  { id := editingId.getD 0
    first := trimStr inp.first
    last := trimStr inp.last
    email := trimStr inp.email
    department := trimStr inp.department }

/-- The `userForm` submit handler (lines 263–330 of `script.js`):
required-field check, email validation, then the update or create branch;
on remote success the collection is reconciled and `applyAllFilters` runs,
on remote failure (non-2xx or network error) only a form error is shown. -/
def submitForm (st : AppState) (editingId : Option Nat) (inp : FormInput)
    (oracle : RemoteOracle) : SubmitOut :=
  let first := trimStr inp.first
  let email := trimStr inp.email
  if first.isEmpty || email.isEmpty then ⟨st, false, true⟩
  else if !validateEmail email then ⟨st, false, true⟩
  else
    match editingId with
    | some eid =>
      match oracle.status with
      | some s =>
        if okStatus s then
          ⟨applyAllFilters { st with users := updateUser st.users eid (draftOf editingId inp) },
            true, false⟩
        else ⟨st, true, true⟩
      | none => ⟨st, true, true⟩
    | none =>
      match oracle.status with
      | some s =>
        if okStatus s then
          ⟨applyAllFilters { st with users := createUser st.users (draftOf none inp) oracle.retId },
            true, false⟩
        else ⟨st, true, true⟩
      | none => ⟨st, true, true⟩

/-! Specification-side definitions, written from the wording of the spec
(§3, §4.1–§4.3, §8) rather than from the source, for the refinement
claims. -/

/-- Spec §3/§8 filter semantics: four independent case-insensitive
substring predicates, an empty filter string imposing no constraint, and —
when the trimmed search term is nonempty — a case-insensitive substring
test of the search term against the four display fields joined by single
spaces. -/
def SpecMatches (fs : Filters) (search : Str) (u : User) : Prop :=
  (fs.first = [] ∨ lower fs.first <:+: lower u.first) ∧
  (fs.last = [] ∨ lower fs.last <:+: lower u.last) ∧
  (fs.email = [] ∨ lower fs.email <:+: lower u.email) ∧
  (fs.department = [] ∨ lower fs.department <:+: lower u.department) ∧
  (trimStr search ≠ [] → lower (trimStr search) <:+: lower (combinedFields u))

/-- Spec §3 collation: string fields compare case-insensitively
lexicographically, the identifier field numerically. -/
def keyLE (k : SortKey) (a b : User) : Prop :=
  match k with
  | .id => a.id ≤ b.id
  | .first => lower a.first ≤ lower b.first
  | .last => lower a.last ≤ lower b.last
  | .email => lower a.email ≤ lower b.email
  | .department => lower a.department ≤ lower b.department

/-- Two records have equal sort keys (equal numeric ids, resp. equal
lowered string fields). -/
def sameKey (k : SortKey) (a b : User) : Bool :=
  match k with
  | .id => a.id == b.id
  | .first => lower a.first == lower b.first
  | .last => lower a.last == lower b.last
  | .email => lower a.email == lower b.email
  | .department => lower a.department == lower b.department

/-- Spec §4.3 email shape: `local-part@domain` with at least one dot
strictly inside the domain, every character outside `@` and whitespace. -/
def EmailShape (e : Str) : Prop :=
  ∃ l d₁ d₂ : Str,
    e = l ++ '@' :: (d₁ ++ '.' :: d₂) ∧ l ≠ [] ∧ d₁ ≠ [] ∧ d₂ ≠ [] ∧
    ∀ c ∈ l ++ d₁ ++ d₂, isJsSpace c = false ∧ c ≠ '@'

/-- Spec §4.1 tokenisation: split the name on whitespace and keep the
nonempty tokens. -/
def tokensSpec (s : Str) : List Str :=
  (List.splitOnP isJsSpace s).filter (fun w => !w.isEmpty)

instance (fs : Filters) (search : Str) (u : User) : Decidable (SpecMatches fs search u) := by
  unfold SpecMatches
  infer_instance

/-! Helper lemmas. -/

theorem includesSub_iff (h n : Str) : includesSub h n = true ↔ n <:+: h := by
  induction h with
  | nil => simp [includesSub, List.isEmpty_iff]
  | cons a t ih =>
    simp [includesSub, List.isPrefixOf_iff_prefix, ih, List.infix_cons_iff]

theorem includesSub_eq_false (h n : Str) : includesSub h n = false ↔ ¬ n <:+: h := by
  rw [← includesSub_iff]
  cases includesSub h n <;> simp

theorem userMatches_iff (fs : Filters) (search : Str) (u : User) :
    userMatches fs (lower (trimStr search)) u = true ↔ SpecMatches fs search u := by
  have hemp : (lower (trimStr search)).isEmpty = true ↔ trimStr search = [] := by
    simp [lower, List.isEmpty_iff]
  unfold userMatches SpecMatches
  split_ifs with h1 h2 h3 h4 h5 <;>
    simp_all [includesSub_iff, includesSub_eq_false, List.isEmpty_iff,
      -List.isEmpty_eq_true] <;>
    try tauto

/-- C1: for every collection, filter set and search term, the filtered
result of the view pipeline is exactly the sublist (in collection order)
of the records that satisfy all four case-insensitive per-field substring
predicates (empty filter = no constraint) and, when the trimmed search
term is nonempty, whose four display fields joined by single spaces
contain the search term case-insensitively. -/
theorem filter_pipeline_exact (users : List User) (fs : Filters) (search : Str) :
    filterStep users fs search = users.filter fun u => decide (SpecMatches fs search u) := by
  unfold filterStep
  apply List.filter_congr
  intro u _
  rw [Bool.eq_iff_iff]
  rw [decide_eq_true_eq]
  exact userMatches_iff fs search u

theorem ceil_cast_div (n p : ℕ) (hp : 0 < p) :
    ⌈(n : ℚ) / (p : ℚ)⌉₊ = (n + p - 1) / p := by
  have hpq : (0 : ℚ) < (p : ℚ) := by exact_mod_cast hp
  rcases Nat.eq_zero_or_pos n with hn | hn
  · subst hn
    rw [Nat.cast_zero, zero_div, Nat.ceil_zero, Nat.div_eq_of_lt (by omega)]
  · have hm1 : 1 ≤ (n + p - 1) / p := by
      rw [Nat.le_div_iff_mul_le hp]
      omega
    have hub : n + p - 1 < ((n + p - 1) / p + 1) * p := by
      rw [← Nat.div_lt_iff_lt_mul hp]
      omega
    have hlb : ((n + p - 1) / p) * p ≤ n + p - 1 := Nat.div_mul_le_self _ _
    set m := (n + p - 1) / p with hmdef
    have hub' : n ≤ m * p := by
      rw [Nat.succ_mul] at hub
      set q := m * p
      omega
    have hlb'' : m * p < n + p := by
      set q := m * p
      omega
    rw [Nat.ceil_eq_iff (by omega)]
    constructor
    · rw [lt_div_iff₀ hpq]
      have h1 : (m : ℚ) * p < (n : ℚ) + p := by exact_mod_cast hlb''
      have h2 : ((m - 1 : ℕ) : ℚ) = (m : ℚ) - 1 := by
        rw [Nat.cast_sub hm1]
        norm_num
      rw [h2]
      nlinarith [h1]
    · rw [div_le_iff₀ hpq]
      exact_mod_cast hub'

/-- C2: for every state with page size at least 1 and prior page number at
least 1, after the recompute of `applyAllFilters` the total page count is
`max 1 ⌈n / p⌉` for the filtered count `n` and page size `p`, and the
current page lies in `[1, totalPages]`. -/
theorem page_window_invariant (st : AppState) (hp : 1 ≤ st.perPage)
    (hpg : 1 ≤ st.page) :
    (applyAllFilters st).totalPages
      = max 1 ⌈((applyAllFilters st).filtered.length : ℚ) / (st.perPage : ℚ)⌉₊ ∧
    1 ≤ (applyAllFilters st).page ∧
    (applyAllFilters st).page ≤ (applyAllFilters st).totalPages := by
  unfold applyAllFilters
  dsimp only
  rw [ceil_cast_div _ _ (by omega)]
  refine ⟨rfl, ?_, ?_⟩
  · split <;> omega
  · split
    · exact le_max_left 1 _
    · omega

theorem page_window_invariant_witness :
    (1 ≤ (AppState.mk [] [] 1 10 1 none 1 (Filters.mk [] [] [] []) []).perPage) ∧
    (1 ≤ (AppState.mk [] [] 1 10 1 none 1 (Filters.mk [] [] [] []) []).page) ∧
    ((applyAllFilters (AppState.mk [] [] 1 10 1 none 1 (Filters.mk [] [] [] []) [])).totalPages
      = max 1 ⌈((applyAllFilters (AppState.mk [] [] 1 10 1 none 1 (Filters.mk [] [] [] []) [])).filtered.length : ℚ)
          / ((AppState.mk [] [] 1 10 1 none 1 (Filters.mk [] [] [] []) []).perPage : ℚ)⌉₊ ∧
    1 ≤ (applyAllFilters (AppState.mk [] [] 1 10 1 none 1 (Filters.mk [] [] [] []) [])).page ∧
    (applyAllFilters (AppState.mk [] [] 1 10 1 none 1 (Filters.mk [] [] [] []) [])).page
      ≤ (applyAllFilters (AppState.mk [] [] 1 10 1 none 1 (Filters.mk [] [] [] []) [])).totalPages) :=
  ⟨by decide, by decide,
    page_window_invariant (AppState.mk [] [] 1 10 1 none 1 (Filters.mk [] [] [] []) [])
      (by decide) (by decide)⟩

/-- C10: the view-pipeline recompute is idempotent — running
`applyAllFilters` twice on unchanged inputs yields the same derived state
(filtered list, total page count, page number) and the same page output as
running it once. -/
theorem recompute_idempotent (st : AppState) :
    applyAllFilters (applyAllFilters st) = applyAllFilters st ∧
    pageItems (applyAllFilters (applyAllFilters st)) = pageItems (applyAllFilters st) := by
  have h : applyAllFilters (applyAllFilters st) = applyAllFilters st := by
    unfold applyAllFilters
    dsimp only
    by_cases hc : st.page >
        max 1 (((sortStep st.sortKey st.sortDir
          (filterStep st.users st.filters st.search)).length + st.perPage - 1) / st.perPage)
    · simp only [if_pos hc]
      have h1 : ¬ (1 > max 1 (((sortStep st.sortKey st.sortDir
          (filterStep st.users st.filters st.search)).length + st.perPage - 1) / st.perPage)) := by
        omega
      simp only [if_neg h1]
    · simp only [if_neg hc]
  exact ⟨h, by rw [h]⟩

theorem cmpVal_le_zero_pos {α : Type} [LinearOrder α] (va vb : α) :
    cmpVal 1 va vb ≤ 0 ↔ va ≤ vb := by
  unfold cmpVal
  split_ifs with h h'
  · norm_num [le_of_lt h]
  · norm_num [not_le.2 h']
  · norm_num [not_lt.1 h']

theorem cmpVal_le_zero_neg {α : Type} [LinearOrder α] (va vb : α) :
    cmpVal (-1) va vb ≤ 0 ↔ vb ≤ va := by
  unfold cmpVal
  split_ifs with h h'
  · norm_num [not_le.2 h]
  · norm_num [le_of_lt h']
  · norm_num [not_lt.1 h]

theorem userLE_one_iff (k : SortKey) (a b : User) :
    userLE k 1 a b = true ↔ keyLE k a b := by
  cases k <;> simp [userLE, cmpUsers, keyLE, cmpVal_le_zero_pos]

theorem userLE_negone_iff (k : SortKey) (a b : User) :
    userLE k (-1) a b = true ↔ keyLE k b a := by
  cases k <;> simp [userLE, cmpUsers, keyLE, cmpVal_le_zero_neg]

theorem keyLE_trans (k : SortKey) {a b c : User} :
    keyLE k a b → keyLE k b c → keyLE k a c := by
  cases k <;> exact fun h1 h2 => le_trans h1 h2

theorem keyLE_total (k : SortKey) (a b : User) : keyLE k a b ∨ keyLE k b a := by
  cases k <;> exact le_total _ _

theorem userLE_trans (k : SortKey) (dir : Int) (hdir : dir = 1 ∨ dir = -1) :
    ∀ a b c : User, userLE k dir a b = true → userLE k dir b c = true →
      userLE k dir a c = true := by
  rcases hdir with h | h <;> subst h <;> intro a b c h1 h2
  · rw [userLE_one_iff] at *
    exact keyLE_trans k h1 h2
  · rw [userLE_negone_iff] at *
    exact keyLE_trans k h2 h1

theorem userLE_total (k : SortKey) (dir : Int) (hdir : dir = 1 ∨ dir = -1) :
    ∀ a b : User, (userLE k dir a b || userLE k dir b a) = true := by
  rcases hdir with h | h <;> subst h <;> intro a b
  · simp only [Bool.or_eq_true, userLE_one_iff]
    exact keyLE_total k a b
  · simp only [Bool.or_eq_true, userLE_negone_iff]
    exact keyLE_total k b a

theorem sameKey_of (k : SortKey) {x y u₀ : User} :
    sameKey k x u₀ = true → sameKey k y u₀ = true → sameKey k x y = true := by
  cases k <;> simp [sameKey] <;> intro h1 h2 <;> rw [h1, h2]

theorem userLE_of_sameKey (k : SortKey) (dir : Int) {a b : User}
    (h : sameKey k a b = true) : userLE k dir a b = true := by
  cases k <;> simp [sameKey] at h <;> simp [userLE, cmpUsers, cmpVal, h]

theorem pairwise_filter_of_all {α : Type} {r : α → α → Prop} (p : α → Bool)
    (l : List α) (h : ∀ x y, p x = true → p y = true → r x y) :
    (l.filter p).Pairwise r := by
  induction l with
  | nil => simp
  | cons a t ih =>
    rw [List.filter_cons]
    split
    · refine List.Pairwise.cons ?_ ih
      intro b hb
      exact h a b (by assumption) (List.of_mem_filter hb)
    · exact ih

/-- C3: with a sort key set, the sort stage returns the stable sort of the
filtered list under that key's collation — a permutation, pairwise ordered
by the key (lowered lexicographic for string keys, numeric for `id`,
reversed for descending direction), in which records with equal keys keep
their relative pre-sort order (the equal-key subsequence is untouched);
with no sort key the list is returned unchanged. -/
theorem sort_stable_correct (k : SortKey) (dir : Int) (l : List User)
    (hdir : dir = 1 ∨ dir = -1) :
    (sortStep (some k) dir l).Perm l ∧
    (dir = 1 → (sortStep (some k) dir l).Pairwise (keyLE k)) ∧
    (dir = -1 → (sortStep (some k) dir l).Pairwise fun a b => keyLE k b a) ∧
    (∀ u₀ : User, (sortStep (some k) dir l).filter (fun x => sameKey k x u₀)
      = l.filter fun x => sameKey k x u₀) ∧
    sortStep none dir l = l := by
  have htrans := userLE_trans k dir hdir
  have htotal := userLE_total k dir hdir
  refine ⟨List.mergeSort_perm l _, ?_, ?_, ?_, rfl⟩
  · intro h1
    subst h1
    exact (List.sorted_mergeSort htrans htotal l).imp
      fun hab => (userLE_one_iff k _ _).1 hab
  · intro h1
    subst h1
    exact (List.sorted_mergeSort htrans htotal l).imp
      fun hab => (userLE_negone_iff k _ _).1 hab
  · intro u₀
    have hpw : (l.filter fun x => sameKey k x u₀).Pairwise
        (fun a b => userLE k dir a b = true) :=
      pairwise_filter_of_all _ l fun x y hx hy =>
        userLE_of_sameKey k dir (sameKey_of k hx hy)
    have hsub : (l.filter fun x => sameKey k x u₀).Sublist
        (l.mergeSort (userLE k dir)) :=
      List.sublist_mergeSort htrans htotal hpw (List.filter_sublist l)
    have hfil : (l.filter fun x => sameKey k x u₀).Sublist
        ((l.mergeSort (userLE k dir)).filter fun x => sameKey k x u₀) := by
      have h2 := List.Sublist.filter (fun x => sameKey k x u₀) hsub
      have hself : (l.filter fun x => sameKey k x u₀).filter
          (fun x => sameKey k x u₀) = l.filter fun x => sameKey k x u₀ :=
        List.filter_eq_self.2 fun a ha => (List.mem_filter.1 ha).2
      rwa [hself] at h2
    have hlen : ((l.mergeSort (userLE k dir)).filter fun x => sameKey k x u₀).length
        = (l.filter fun x => sameKey k x u₀).length :=
      ((List.mergeSort_perm l (userLE k dir)).filter _).length_eq
    exact (hfil.eq_of_length hlen.symm).symm

theorem sort_stable_correct_witness :
    (sortStep (some SortKey.id) 1
      [User.mk 2 [] [] [] [], User.mk 1 [] [] [] []]).Perm
      [User.mk 2 [] [] [] [], User.mk 1 [] [] [] []] :=
  (sort_stable_correct SortKey.id 1
    [User.mk 2 [] [] [] [], User.mk 1 [] [] [] []] (Or.inl rfl)).1

theorem le_foldr_max (ids : List Nat) : ∀ x ∈ ids, x ≤ ids.foldr max 0 := by
  induction ids with
  | nil => intro x hx; cases hx
  | cons a t ih =>
    intro x hx
    rcases List.mem_cons.1 hx with h | h
    · subst h
      exact le_max_left _ _
    · exact (ih x h).trans (le_max_right _ _)

/-- C4 (amended): id uniqueness of the local collection is preserved by
every operation provided the identifiers coming from the remote service
are fresh — the initial load preserves it when the fetched records carry
pairwise-distinct ids, create preserves it when the (nonzero) id returned
by the server is not already present (the `max+1` fallback id is always
fresh), and update and delete preserve it unconditionally. -/
theorem ids_unique_preserved (data : List RawUser) (users : List User)
    (draft : User) (retId : Option Nat) (eid i : Nat) (resp : Option Nat) :
    ((data.map RawUser.id).Nodup → ((loadUsers data).map User.id).Nodup) ∧
    ((users.map User.id).Nodup →
      (∀ j, retId = some j → j ≠ 0 → j ∉ users.map User.id) →
      ((createUser users draft retId).map User.id).Nodup) ∧
    (draft.id = eid → (users.map User.id).Nodup →
      ((updateUser users eid draft).map User.id).Nodup) ∧
    ((users.map User.id).Nodup → ((deleteUser users i resp).map User.id).Nodup) := by
  refine ⟨?_, ?_, ?_, ?_⟩
  · intro h
    have hmap : (loadUsers data).map User.id = data.map RawUser.id := by
      unfold loadUsers
      rw [List.map_map]
      rfl
    rwa [hmap]
  · intro h hfresh
    unfold createUser
    dsimp only
    have hfall : (users.map User.id).foldr max 0 + 1 ∉ users.map User.id := by
      intro hmem
      exact absurd (le_foldr_max _ _ hmem) (by omega)
    cases retId with
    | none =>
      simp only [List.map_cons]
      exact List.nodup_cons.2 ⟨hfall, h⟩
    | some j =>
      by_cases hj : j = 0
      · subst hj
        simp only [if_neg (by omega : ¬ (0 : Nat) ≠ 0), List.map_cons]
        exact List.nodup_cons.2 ⟨hfall, h⟩
      · simp only [if_pos hj, List.map_cons]
        exact List.nodup_cons.2 ⟨hfresh j rfl hj, h⟩
  · intro hid h
    have hmap : (updateUser users eid draft).map User.id = users.map User.id := by
      unfold updateUser
      rw [List.map_map]
      apply List.map_congr_left
      intro u _
      by_cases hc : u.id = eid
      · simp [Function.comp, hc, hid]
      · simp [Function.comp, hc]
    rwa [hmap]
  · intro h
    unfold deleteUser
    cases resp with
    | none => exact h
    | some s =>
      dsimp only
      by_cases hcond : (!okStatus s && decide (s ≠ 200) && decide (s ≠ 204)) = true
      · rw [if_pos hcond]
        exact h
      · rw [if_neg hcond]
        exact List.Nodup.sublist
          (List.Sublist.map User.id (List.filter_sublist users)) h

theorem ids_unique_preserved_witness :
    ((createUser [User.mk 1 [] [] [] []] (User.mk 0 [] [] [] []) none).map
      User.id).Nodup :=
  (ids_unique_preserved [] [User.mk 1 [] [] [] []] (User.mk 0 [] [] [] []) none 0 0
    none).2.1 (by decide) (fun j hj => nomatch hj)

/-- C4 counterexample: as literally stated the claim is false — a
successful create whose server response carries an id already present
locally (JSONPlaceholder answers every create with id 11) duplicates that
id in the local collection. -/
theorem ids_unique_cex :
    ¬ ∀ (users : List User) (draft : User) (retId : Option Nat),
        (users.map User.id).Nodup →
        ((createUser users draft retId).map User.id).Nodup := by
  intro h
  exact absurd
    (h [User.mk 11 [] [] [] []] (User.mk 0 [] [] [] []) (some 11) (by decide))
    (by decide)

/-- C5 (amended): on a successful create the new record is assigned the
server-returned identifier when it is present and nonzero or, when it is
absent or zero (`ret.id ||` treats `0` as absent), one greater than the
maximum local identifier (taken as `0` for an empty collection), and is
prepended to the front of the local collection with all existing records
unchanged; the submit handler then recomputes the view pipeline on the new
collection. -/
theorem create_prepends (users : List User) (draft : User) (retId : Option Nat)
    (st : AppState) (inp : FormInput) (oracle : RemoteOracle) (s : Nat) :
    (∀ j, retId = some j → j ≠ 0 →
      createUser users draft retId = { draft with id := j } :: users) ∧
    (retId = none ∨ retId = some 0 →
      createUser users draft retId
        = { draft with id := (users.map User.id).foldr max 0 + 1 } :: users) ∧
    ((trimStr inp.first).isEmpty = false → validateEmail (trimStr inp.email) = true →
      oracle.status = some s → okStatus s = true →
      (submitForm st none inp oracle).state
        = applyAllFilters
            { st with users := createUser st.users (draftOf none inp) oracle.retId }) := by
  refine ⟨?_, ?_, ?_⟩
  · intro j hj hj0
    subst hj
    unfold createUser
    simp [hj0]
  · intro hcase
    unfold createUser
    rcases hcase with hc | hc <;> subst hc <;> simp
  · intro hfirst hmail hstat hok
    have hne : (trimStr inp.email).isEmpty = false := by
      cases he : trimStr inp.email with
      | nil => rw [he] at hmail; exact absurd hmail (by decide)
      | cons a t => simp
    unfold submitForm
    simp [hstat, hfirst, hne, hmail, hok]

theorem create_prepends_witness :
    createUser [User.mk 1 [] [] [] []] (User.mk 0 [] [] [] []) (some 7)
      = { User.mk 0 [] [] [] [] with id := 7 } :: [User.mk 1 [] [] [] []] :=
  (create_prepends [User.mk 1 [] [] [] []] (User.mk 0 [] [] [] []) (some 7)
    (AppState.mk [] [] 1 10 1 none 1 (Filters.mk [] [] [] []) [])
    (FormInput.mk [] [] [] []) (RemoteOracle.mk none none) 200).1 7 rfl (by decide)

/-- C5 counterexample: when the server response carries the identifier `0`
the code does not assign it (`ret.id ||` treats `0` as falsy) but falls
back to `max+1`, so the claim's unconditional "assigned the
server-returned identifier" fails. -/
theorem create_zero_id_cex :
    createUser [User.mk 5 [] [] [] []] (User.mk 0 [] [] [] []) (some 0)
      ≠ { User.mk 0 [] [] [] [] with id := 0 } :: [User.mk 5 [] [] [] []] := by
  decide

/-- C6: delete removes exactly the records with the given id iff the HTTP
status is a 2xx ("ok") status — the explicit 200/204 cases of the source
are subsumed — and for any non-2xx status or a network error the local
collection is left completely unchanged. -/
theorem delete_iff_ok (users : List User) (i s : Nat) :
    ((200 ≤ s ∧ s ≤ 299) →
      deleteUser users i (some s) = users.filter fun u => decide (u.id ≠ i)) ∧
    (¬ (200 ≤ s ∧ s ≤ 299) → deleteUser users i (some s) = users) ∧
    deleteUser users i none = users := by
  refine ⟨?_, ?_, rfl⟩
  · intro h
    unfold deleteUser okStatus
    dsimp only
    rw [if_neg]
    simp [h.1, h.2]
  · intro h
    unfold deleteUser okStatus
    dsimp only
    rw [if_pos]
    have h200 : s ≠ 200 := by omega
    have h204 : s ≠ 204 := by omega
    have hnok : ¬ (200 ≤ s ∧ s ≤ 299) := h
    simp only [Bool.and_eq_true, Bool.not_eq_true', decide_eq_true_eq]
    refine ⟨⟨?_, h200⟩, h204⟩
    simp only [Bool.and_eq_false_iff, decide_eq_false_iff_not]
    omega

theorem delete_iff_ok_witness :
    deleteUser [User.mk 7 [] [] [] []] 7 (some 500) = [User.mk 7 [] [] [] []] :=
  (delete_iff_ok [User.mk 7 [] [] [] []] 7 500).2.1 (by omega)

/-- C7: a successful update replaces exactly the records whose id equals
the given id by the draft, leaves every other record in place, and
preserves the relative order and the length of the collection. -/
theorem update_frame_exact (users : List User) (eid : Nat) (draft : User) :
    (updateUser users eid draft).length = users.length ∧
    ∀ (n : Nat) (u : User), users[n]? = some u →
      (u.id = eid → (updateUser users eid draft)[n]? = some draft) ∧
      (u.id ≠ eid → (updateUser users eid draft)[n]? = some u) := by
  unfold updateUser
  refine ⟨List.length_map users _, ?_⟩
  intro n u hu
  rw [List.getElem?_map, hu]
  constructor <;> intro hid <;> simp [hid]

theorem update_frame_exact_witness :
    (updateUser [User.mk 3 [] [] [] []] 3 (User.mk 3 ['x'] [] [] []))[0]?
      = some (User.mk 3 ['x'] [] [] []) :=
  ((update_frame_exact [User.mk 3 [] [] [] []] 3 (User.mk 3 ['x'] [] [] [])).2 0
    (User.mk 3 [] [] [] []) (by decide)).1 (by decide)

theorem breakAtChar_some (c : Char) :
    ∀ (e l r : Str), breakAtChar c e = some (l, r) ↔ e = l ++ c :: r ∧ c ∉ l := by
  intro e
  induction e with
  | nil =>
    intro l r
    constructor
    · intro h
      exact absurd h (by simp [breakAtChar])
    · rintro ⟨h, -⟩
      exact absurd h.symm (by simp)
  | cons x xs ih =>
    intro l r
    by_cases hx : x = c
    · subst hx
      simp only [breakAtChar, if_true, Option.some.injEq, Prod.mk.injEq]
      constructor
      · rintro ⟨h1, h2⟩
        subst h2
        simp [← h1]
      · rintro ⟨h1, h2⟩
        cases l with
        | nil =>
          simp only [List.nil_append, List.cons.injEq] at h1
          exact ⟨rfl, h1.2⟩
        | cons y l' =>
          simp only [List.cons_append, List.cons.injEq] at h1
          exact absurd (List.mem_cons_self y l') (h1.1 ▸ h2)
    · simp only [breakAtChar, if_neg hx]
      cases hb : breakAtChar c xs with
      | none =>
        constructor
        · intro h
          exact absurd h (by simp)
        · rintro ⟨h1, h2⟩
          cases l with
          | nil =>
            simp only [List.nil_append, List.cons.injEq] at h1
            exact absurd h1.1 hx
          | cons y l' =>
            simp only [List.cons_append, List.cons.injEq] at h1
            have h2' : c ∉ l' := fun hm => h2 (List.mem_cons_of_mem _ hm)
            have := (ih l' r).2 ⟨h1.2, h2'⟩
            rw [hb] at this
            exact absurd this (by simp)
      | some lr =>
        obtain ⟨l', r'⟩ := lr
        simp only [Option.some.injEq, Prod.mk.injEq]
        constructor
        · rintro ⟨h1, h2⟩
          have hih := (ih l' r').1 hb
          subst h2
          constructor
          · rw [← h1, hih.1]
            rfl
          · rw [← h1]
            intro hm
            rcases List.mem_cons.1 hm with hm' | hm'
            · exact hx hm'.symm
            · exact hih.2 hm'
        · rintro ⟨h1, h2⟩
          cases l with
          | nil =>
            simp only [List.nil_append, List.cons.injEq] at h1
            exact absurd h1.1 hx
          | cons y l₂ =>
            simp only [List.cons_append, List.cons.injEq] at h1
            have h2' : c ∉ l₂ := fun hm => h2 (List.mem_cons_of_mem _ hm)
            have := (ih l₂ r).2 ⟨h1.2, h2'⟩
            rw [hb] at this
            simp only [Option.some.injEq, Prod.mk.injEq] at this
            exact ⟨by rw [h1.1, this.1], this.2⟩

theorem dotNotLast_iff :
    ∀ s : Str, dotNotLast s = true ↔
      ∃ d₁ d₂ : Str, s = d₁ ++ '.' :: d₂ ∧ d₂ ≠ [] := by
  intro s
  induction s with
  | nil =>
    constructor
    · intro h
      exact absurd h (by simp [dotNotLast])
    · rintro ⟨d₁, d₂, heq, -⟩
      exact absurd heq.symm (by simp)
  | cons x xs ih =>
    cases xs with
    | nil =>
      constructor
      · intro h
        exact absurd h (by simp [dotNotLast])
      · rintro ⟨d₁, d₂, heq, hne⟩
        cases d₁ with
        | nil =>
          simp only [List.nil_append, List.cons.injEq] at heq
          exact absurd heq.2.symm hne
        | cons z d₁' =>
          simp only [List.cons_append, List.cons.injEq] at heq
          exact absurd heq.2.symm (by simp)
    | cons y t =>
      have heq : dotNotLast (x :: y :: t) = (decide (x = '.') || dotNotLast (y :: t)) := rfl
      rw [heq]
      constructor
      · intro h
        rcases Bool.or_eq_true_iff.1 h with h' | h'
        · exact ⟨[], y :: t, by simp [of_decide_eq_true h'], by simp⟩
        · obtain ⟨d₁, d₂, hd, hne⟩ := ih.1 h'
          exact ⟨x :: d₁, d₂, by rw [List.cons_append, ← hd], hne⟩
      · rintro ⟨d₁, d₂, hd, hne⟩
        cases d₁ with
        | nil =>
          simp only [List.nil_append, List.cons.injEq] at hd
          simp [hd.1]
        | cons z d₁' =>
          simp only [List.cons_append, List.cons.injEq] at hd
          exact Bool.or_eq_true_iff.2 (Or.inr (ih.2 ⟨d₁', d₂, hd.2, hne⟩))

theorem hasInteriorDot_iff (d : Str) :
    hasInteriorDot d = true ↔
      ∃ d₁ d₂ : Str, d = d₁ ++ '.' :: d₂ ∧ d₁ ≠ [] ∧ d₂ ≠ [] := by
  cases d with
  | nil =>
    constructor
    · intro h
      exact absurd h (by simp [hasInteriorDot])
    · rintro ⟨d₁, d₂, heq, h1, -⟩
      cases d₁ with
      | nil => exact absurd rfl h1
      | cons z d₁' => exact absurd heq.symm (by simp)
  | cons x rest =>
    have hdef : hasInteriorDot (x :: rest) = dotNotLast rest := rfl
    rw [hdef, dotNotLast_iff rest]
    constructor
    · rintro ⟨d₁, d₂, heq, hne⟩
      exact ⟨x :: d₁, d₂, by rw [List.cons_append, ← heq], by simp, hne⟩
    · rintro ⟨d₁, d₂, heq, h1, h2⟩
      cases d₁ with
      | nil => exact absurd rfl h1
      | cons z d₁' =>
        simp only [List.cons_append, List.cons.injEq] at heq
        exact ⟨d₁', d₂, heq.2, h2⟩

theorem validateEmail_iff (e : Str) : validateEmail e = true ↔ EmailShape e := by
  unfold validateEmail EmailShape
  cases hb : breakAtChar '@' e with
  | none =>
    constructor
    · intro h
      exact absurd h (by simp)
    · rintro ⟨l, d₁, d₂, heq, hl, h1, h2, hch⟩
      have hnotin : '@' ∉ l := fun hm => (hch '@' (by simp [hm])).2 rfl
      have hsome := (breakAtChar_some '@' e l (d₁ ++ '.' :: d₂)).2 ⟨heq, hnotin⟩
      rw [hb] at hsome
      exact absurd hsome (by simp)
  | some lr =>
    obtain ⟨l, d⟩ := lr
    have hbs := (breakAtChar_some '@' e l d).1 hb
    constructor
    · intro h
      simp only [Bool.and_eq_true] at h
      obtain ⟨⟨⟨hl, hall⟩, hdall⟩, hdot⟩ := h
      obtain ⟨d₁, d₂, hdeq, hd1, hd2⟩ := (hasInteriorDot_iff d).1 hdot
      refine ⟨l, d₁, d₂, by rw [hbs.1, hdeq], ?_, hd1, hd2, ?_⟩
      · intro hle
        rw [hle] at hl
        exact absurd hl (by simp)
      · intro ch hc
        have hce : isEmailChar ch = true := by
          rcases List.mem_append.1 hc with hc' | hc'
          · rcases List.mem_append.1 hc' with hc'' | hc''
            · exact List.all_eq_true.1 hall ch hc''
            · refine List.all_eq_true.1 hdall ch ?_
              rw [hdeq]
              exact List.mem_append.2 (Or.inl hc'')
          · refine List.all_eq_true.1 hdall ch ?_
            rw [hdeq]
            exact List.mem_append.2 (Or.inr (List.mem_cons_of_mem _ hc'))
        unfold isEmailChar at hce
        simp only [Bool.and_eq_true, Bool.not_eq_true', bne_iff_ne, ne_eq] at hce
        exact ⟨hce.1, hce.2⟩
    · rintro ⟨l', d₁, d₂, heq, hl', hd1, hd2, hch⟩
      have hnotin : '@' ∉ l' := fun hm => (hch '@' (by simp [hm])).2 rfl
      have hsome := (breakAtChar_some '@' e l' (d₁ ++ '.' :: d₂)).2 ⟨heq, hnotin⟩
      rw [hb] at hsome
      simp only [Option.some.injEq, Prod.mk.injEq] at hsome
      obtain ⟨hleq, hdeq⟩ := hsome
      have hchar : ∀ ch ∈ l' ++ d₁ ++ d₂, isEmailChar ch = true := by
        intro ch hc
        have hpc := hch ch hc
        unfold isEmailChar
        simp only [Bool.and_eq_true, Bool.not_eq_true', bne_iff_ne, ne_eq]
        exact ⟨hpc.1, hpc.2⟩
      simp only [Bool.and_eq_true]
      refine ⟨⟨⟨?_, ?_⟩, ?_⟩, ?_⟩
      · rw [hleq]
        cases l' with
        | nil => exact absurd rfl hl'
        | cons a t => simp
      · refine List.all_eq_true.2 fun ch hc => ?_
        rw [hleq] at hc
        exact hchar ch (List.mem_append.2 (Or.inl (List.mem_append.2 (Or.inl hc))))
      · refine List.all_eq_true.2 fun ch hc => ?_
        rw [hdeq] at hc
        rcases List.mem_append.1 hc with hc' | hc'
        · exact hchar ch (List.mem_append.2 (Or.inl (List.mem_append.2 (Or.inr hc'))))
        · rcases List.mem_cons.1 hc' with hc'' | hc''
          · subst hc''
            decide
          · exact hchar ch (List.mem_append.2 (Or.inr hc''))
      · exact (hasInteriorDot_iff d).2 ⟨d₁, d₂, hdeq, hd1, hd2⟩

/-- C8: a create or update submission whose trimmed first name is empty,
or whose trimmed email is not of the shape `local-part@domain` with a dot
strictly inside the domain (no whitespace or further `@`), is rejected
before any remote call: a form-level error is shown and the whole
application state — in particular the local collection — is unchanged. -/
theorem invalid_submit_rejected (st : AppState) (editingId : Option Nat)
    (inp : FormInput) (oracle : RemoteOracle)
    (h : trimStr inp.first = [] ∨ ¬ EmailShape (trimStr inp.email)) :
    (submitForm st editingId inp oracle).state = st ∧
    (submitForm st editingId inp oracle).remoteCalled = false ∧
    (submitForm st editingId inp oracle).formError = true := by
  unfold submitForm
  rcases h with h | h
  · simp [h]
  · have hv : validateEmail (trimStr inp.email) = false := by
      cases hve : validateEmail (trimStr inp.email) with
      | false => rfl
      | true => exact absurd ((validateEmail_iff _).1 hve) h
    by_cases h1 : ((trimStr inp.first).isEmpty || (trimStr inp.email).isEmpty) = true
    · simp [h1]
    · simp [h1, hv]

theorem invalid_submit_rejected_witness :
    (submitForm (AppState.mk [] [] 1 10 1 none 1 (Filters.mk [] [] [] []) [])
        none (FormInput.mk [] [] ['a'] []) (RemoteOracle.mk (some 200) none)).state
      = AppState.mk [] [] 1 10 1 none 1 (Filters.mk [] [] [] []) [] ∧
    (submitForm (AppState.mk [] [] 1 10 1 none 1 (Filters.mk [] [] [] []) [])
        none (FormInput.mk [] [] ['a'] []) (RemoteOracle.mk (some 200) none)).remoteCalled
      = false ∧
    (submitForm (AppState.mk [] [] 1 10 1 none 1 (Filters.mk [] [] [] []) [])
        none (FormInput.mk [] [] ['a'] []) (RemoteOracle.mk (some 200) none)).formError
      = true :=
  invalid_submit_rejected (AppState.mk [] [] 1 10 1 none 1 (Filters.mk [] [] [] []) [])
    none (FormInput.mk [] [] ['a'] []) (RemoteOracle.mk (some 200) none)
    (Or.inl (by decide))

theorem splitOnP_ne_nil (p : Char → Bool) (s : Str) : List.splitOnP p s ≠ [] := by
  induction s with
  | nil => simp [List.splitOnP_nil]
  | cons a l ih =>
    rw [List.splitOnP_cons]
    split
    · simp
    · cases h : List.splitOnP p l with
      | nil => exact absurd h ih
      | cons b t => simp [h, List.modifyHead]

theorem splitTokensAux_eq (s : Str) : ∀ acc : Str,
    splitTokensAux s acc =
      (if (acc.reverse ++ (List.splitOnP isJsSpace s).headD []).isEmpty then []
       else [acc.reverse ++ (List.splitOnP isJsSpace s).headD []]) ++
      ((List.splitOnP isJsSpace s).tail.filter fun w => !w.isEmpty) := by
  induction s with
  | nil =>
    intro acc
    by_cases hacc : acc = []
    · simp [splitTokensAux, List.splitOnP_nil, hacc]
    · simp [splitTokensAux, List.splitOnP_nil, hacc, List.isEmpty_iff]
  | cons c cs ih =>
    intro acc
    rw [List.splitOnP_cons]
    by_cases hc : isJsSpace c = true
    · rw [if_pos hc]
      have hlhs : splitTokensAux (c :: cs) acc =
          if acc.isEmpty then splitTokensAux cs []
          else acc.reverse :: splitTokensAux cs [] := by
        simp [splitTokensAux, hc]
      rw [hlhs, ih []]
      cases hsp : List.splitOnP isJsSpace cs with
      | nil => exact absurd hsp (splitOnP_ne_nil _ _)
      | cons h' t' =>
        by_cases hacc : acc = [] <;> by_cases hh : h'.isEmpty = true <;>
          simp [hacc, hh, List.filter_cons, List.isEmpty_iff] <;>
          simp_all [List.isEmpty_iff]
    · rw [if_neg hc]
      have hlhs : splitTokensAux (c :: cs) acc = splitTokensAux cs (c :: acc) := by
        simp [splitTokensAux, hc]
      rw [hlhs, ih (c :: acc)]
      cases hsp : List.splitOnP isJsSpace cs with
      | nil => exact absurd hsp (splitOnP_ne_nil _ _)
      | cons h' t' =>
        simp [List.modifyHead, List.reverse_cons, List.append_assoc]

theorem splitTokens_eq (s : Str) : splitTokens s = tokensSpec s := by
  unfold splitTokens tokensSpec
  rw [splitTokensAux_eq s []]
  cases hsp : List.splitOnP isJsSpace s with
  | nil => exact absurd hsp (splitOnP_ne_nil _ _)
  | cons h t =>
    by_cases hh : h.isEmpty = true <;>
      simp [hh, List.filter_cons]

/-- C9: the record normaliser is pure and total — for every raw remote
record it produces the record whose `first` is the first
whitespace-separated token of the name, whose `last` is the remaining
tokens joined by single spaces (empty when absent or when the name is
missing), whose `email` defaults to the empty string when missing, and
whose `department` is the nested company name when present, else the
empty string. -/
theorem normalizer_exact (raw : RawUser) :
    makeUserFromAPI raw =
      { id := raw.id
        first := (tokensSpec (raw.name.getD [])).headD []
        last := joinSpace ((tokensSpec (raw.name.getD [])).drop 1)
        email := raw.email.getD []
        department := (raw.company.bind RawCompany.name).getD [] } := by
  obtain ⟨i, nm, em, co⟩ := raw
  unfold makeUserFromAPI
  dsimp only
  simp only [User.mk.injEq, true_and, and_true]
  refine ⟨?_, ?_, ?_⟩
  · cases nm with
    | none => simp [splitName, tokensSpec, List.splitOnP_nil]
    | some f =>
      by_cases hf : f.isEmpty = true
      · have hfe : f = [] := by simpa [List.isEmpty_iff] using hf
        subst hfe
        simp [splitName, tokensSpec, List.splitOnP_nil]
      · simp [splitName, hf, splitTokens_eq]
  · cases nm with
    | none => simp [splitName, tokensSpec, List.splitOnP_nil, joinSpace]
    | some f =>
      by_cases hf : f.isEmpty = true
      · have hfe : f = [] := by simpa [List.isEmpty_iff] using hf
        subst hfe
        simp [splitName, tokensSpec, List.splitOnP_nil, joinSpace]
      · simp [splitName, hf, splitTokens_eq]
  · cases co with
    | none => rfl
    | some comp =>
      obtain ⟨cn⟩ := comp
      cases cn with
      | none => rfl
      | some n =>
        by_cases hne : n.isEmpty = true
        · have hnn : n = [] := by simpa [List.isEmpty_iff] using hne
          subst hnn
          simp [Option.bind]
        · simp [Option.bind, hne]

end UMDash
